import Mathlib

/-!
Verification of the autocracy configuration-management control plane.

Each namespace embeds one part of the source in Lean: pure functions become
Lean functions, stateful code becomes explicit state passing, fallible code
returns Option or an explicit error value. The theorems at the end of the
file settle the claims C1..C10 about the program.
-/

set_option autoImplicit false

/-! Definitions -/

namespace Utils

/-- Embeds the component well-formedness used by pathlib when constructing a
Path: empty components and bare "." components are dropped. -/
def wfPart (s : String) : Bool := s != "" && s != "."

/-- Embeds splitting a path string on the slash separator, accumulating the
current component in reverse. -/
def splitSlash : List Char → List Char → List String
  | [], cur => [String.mk cur.reverse]
  | c :: rest, cur =>
    if c = '/' then String.mk cur.reverse :: splitSlash rest []
    else splitSlash rest (c :: cur)

/-- Embeds the decomposition of a path string into pathlib parts (after
stripping the anchor with relative_to): split on the slash separator, then
drop empty and "." components. A leading slash yields an initial empty
component, so absolute paths lose their anchor here exactly as
path.relative_to(path.anchor) does. -/
def pathParts (p : String) : List String :=
  (splitSlash p.toList []).filter wfPart

/-- Embeds the loop body of normalize_path (src/autocracy/utils.py:369): for
each part, ".." pops the most recent accumulated component (the IndexError on
an empty accumulator is swallowed), "." is skipped, anything else is
appended. -/
def normalizeLoop : List String → List String → List String
  | acc, [] => acc
  | acc, part :: rest =>
    if part = ".." then normalizeLoop acc.dropLast rest
    else if part = "." then normalizeLoop acc rest
    else normalizeLoop (acc ++ [part]) rest

/-- Embeds normalize_path applied to an already-parsed Path, represented by
its component list; Path construction from components drops empty and "."
components, which the initial filter reflects. -/
def normalize_path (parts : List String) : List String :=
  normalizeLoop [] (parts.filter wfPart)

/-- Embeds normalize_path applied to a raw path string. -/
def normalize_path_str (p : String) : List String :=
  normalizeLoop [] (pathParts p)

/-- Embeds str(Path(*parts)): the empty component list renders as ".",
anything else joins the components with slashes. -/
def renderPath (parts : List String) : String :=
  match parts with
  | [] => "."
  | ps => String.intercalate "/" ps

/-- Association-list lookup; embeds Python dict indexing, where the result
None stands for a raised KeyError (dict keys are unique, so first match is
the match). -/
def lookupStr {α : Type} : List (String × α) → String → Option α
  | [], _ => none
  | (k2, v) :: rest, k => if k2 = k then some v else lookupStr rest k

/-- Embeds Python dict assignment d[k] = v: replace the value in place if the
key exists, otherwise append the new entry. -/
def insertStr {α : Type} : List (String × α) → String → α → List (String × α)
  | [], k, v => [(k, v)]
  | (k2, v2) :: rest, k, v =>
    if k2 = k then (k2, v) :: rest else (k2, v2) :: insertStr rest k v

/-- Embeds Python del d[k] on a unique-key dict: drop the entry. -/
def eraseStr {α : Type} : List (String × α) → String → List (String × α)
  | [], _ => []
  | (k2, v) :: rest, k => if k2 = k then rest else (k2, v) :: eraseStr rest k

end Utils

namespace Loader

/-- Embeds the observable behaviour of one policy file when executed: the
sequence of include and require calls it makes. -/
inductive Directive : Type
  | inc (path : String)
  | req (path : String)

/-- Embeds the error outcomes of _load_from_repository
(src/autocracy/common.py:1012). The fuel constructor is an artifact of the
embedding; every Python execution corresponds to a sufficiently large fuel. -/
inductive LoadErr : Type
  | duplicateConfigfile (path : String)
  | missingFile (fname : String)
  | fuel
deriving DecidableEq

/-- Loader state: the seen set of already-loaded filenames, plus a trace of
the files whose code was actually executed, in execution order. -/
structure LoadState : Type where
  seen : List String
  evaluated : List String
deriving DecidableEq

/-- Embeds the filename computation of load(): the normalized path with a .py
suffix appended. -/
def pyFilename (path : String) : String :=
  Utils.renderPath (Utils.normalize_path_str path) ++ ".py"

/-- Embeds executing a file body given the load closure: each include runs
load with ignore_duplicate false, each require with ignore_duplicate true;
any raised error propagates and aborts the rest of the file. -/
def runDirectives (loadfn : String → Bool → LoadState → Except LoadErr LoadState) :
    List Directive → LoadState → Except LoadErr LoadState
  | [], st => .ok st
  | .inc p :: rest, st =>
    match loadfn p false st with
    | .error e => .error e
    | .ok st2 => runDirectives loadfn rest st2
  | .req p :: rest, st =>
    match loadfn p true st with
    | .error e => .error e
    | .ok st2 => runDirectives loadfn rest st2

/-- Embeds load(path, ignore_duplicate) of _load_from_repository: an
already-seen filename returns silently when ignore_duplicate is set and
raises DuplicateConfigfile otherwise; a fresh filename is added to seen, its
content fetched via get_file (KeyError when absent), and its code executed,
which may load further files. The fuel bounds the include depth. -/
def load (repo : List (String × List Directive)) :
    Nat → String → Bool → LoadState → Except LoadErr LoadState
  | 0, _, _, _ => .error .fuel
  | fuel + 1, path, ignoreDuplicate, st =>
    let filename := pyFilename path
    if filename ∈ st.seen then
      if ignoreDuplicate then .ok st
      else .error (.duplicateConfigfile path)
    else
      match Utils.lookupStr repo filename with
      | none => .error (.missingFile filename)
      | some directives =>
        runDirectives (load repo fuel) directives
          { seen := filename :: st.seen, evaluated := st.evaluated ++ [filename] }

/-- Embeds the whole of _load_from_repository: include(filename) starting
from an empty seen set. -/
def load_from_repository (repo : List (String × List Directive)) (fuel : Nat)
    (filename : String) : Except LoadErr LoadState :=
  load repo fuel filename false { seen := [], evaluated := [] }

end Loader

namespace DecreesBase

/-- Static data of one decree as seen by Decree._apply
(src/autocracy/decrees/base.py:112): the result the kind-specific
_update_needed detection query would report, whether the class has _update
and _activate methods, and the value of call_if_callable(activate_if). -/
structure DecreeConf : Type where
  update_needed : Bool
  has_update : Bool
  has_activate : Bool
  should_activate : Bool
deriving DecidableEq

/-- Mutable per-decree state: the applied latch and the updated/activated
attributes, none while they still hold the raising fallback. -/
structure DecreeState : Type where
  applied : Bool
  updated : Option Bool
  activated : Option Bool
deriving DecidableEq

/-- Embeds the exceptions Decree._apply can raise: the reuse RuntimeError,
and the NameError raised when evaluating the undefined name xyzzy. -/
inductive PyErr : Type
  | reuseError
  | nameErrorXyzzy
deriving DecidableEq

/-- Result of one _apply call: the exception if one escaped, the decree
state afterwards, and whether the detection, update and activate phases
actually ran. -/
structure ApplyOutcome : Type where
  error : Option PyErr
  state : DecreeState
  ranDetect : Bool
  ranUpdate : Bool
  ranActivate : Bool
deriving DecidableEq

/-- Embeds Decree._apply of src/autocracy/decrees/base.py:112. The reuse
check precedes the try block, so a reused decree raises with its state
untouched. Inside the try block, updated is assigned the value of
update_needed and hasattr(_update) and (dry_run or xyzzy(_update()) or
True); evaluating that last disjunct looks up the undefined name xyzzy
before evaluating its argument, so with dry_run False it raises NameError
and _update never runs. The activated assignment is built the same way from
should_activate and hasattr(_activate). The finally clause sets the applied
latch on every path through the try block. -/
def decreeApply (c : DecreeConf) (dryRun : Bool) (s : DecreeState) : ApplyOutcome :=
  if s.applied then
    { error := some .reuseError, state := s,
      ranDetect := false, ranUpdate := false, ranActivate := false }
  else if c.update_needed && c.has_update && !dryRun then
    { error := some .nameErrorXyzzy, state := { s with applied := true },
      ranDetect := true, ranUpdate := false, ranActivate := false }
  else
    let s1 : DecreeState := { s with updated := some (c.update_needed && c.has_update) }
    if c.should_activate && c.has_activate && !dryRun then
      { error := some .nameErrorXyzzy, state := { s1 with applied := true },
        ranDetect := true, ranUpdate := false, ranActivate := false }
    else
      { error := none,
        state := { s1 with
                    activated := some (c.should_activate && c.has_activate),
                    applied := true },
        ranDetect := true, ranUpdate := false, ranActivate := false }

/-- A decree tree: leaves carry Decree data, groups carry their applied
latch and their children in declaration order. -/
inductive DTree : Type
  | leaf (c : DecreeConf) (s : DecreeState)
  | group (applied : Bool) (children : List DTree)

/-- Result of applying a subtree: the escaped exception if any, the tree
afterwards, and whether any update or activate phase ran anywhere in it. -/
structure TreeOutcome : Type where
  error : Option PyErr
  tree : DTree
  ranUpdate : Bool
  ranActivate : Bool

/-- Result of applying a list of sibling subtrees. -/
structure ForestOutcome : Type where
  error : Option PyErr
  trees : List DTree
  ranUpdate : Bool
  ranActivate : Bool

mutual

/-- Embeds _apply on a node of the decree tree: Decree._apply for leaves and
Group._apply (src/autocracy/decrees/base.py:186) for groups. Group._apply
checks its own applied latch, then applies the children in declaration
order; an exception aborts the loop, and the finally clause sets the group's
latch on every path. -/
def applyTree (dryRun : Bool) : DTree → TreeOutcome
  | .leaf c s =>
    let o := decreeApply c dryRun s
    { error := o.error, tree := .leaf c o.state,
      ranUpdate := o.ranUpdate, ranActivate := o.ranActivate }
  | .group applied children =>
    if applied then
      { error := some .reuseError, tree := .group applied children,
        ranUpdate := false, ranActivate := false }
    else
      let r := applyForest dryRun children
      { error := r.error, tree := .group true r.trees,
        ranUpdate := r.ranUpdate, ranActivate := r.ranActivate }

/-- Embeds the child loop of Group._apply: apply each child in order until
one raises; the children after a raising child are left untouched. -/
def applyForest (dryRun : Bool) : List DTree → ForestOutcome
  | [] => { error := none, trees := [], ranUpdate := false, ranActivate := false }
  | t :: rest =>
    let o := applyTree dryRun t
    match o.error with
    | some e =>
      { error := some e, trees := o.tree :: rest,
        ranUpdate := o.ranUpdate, ranActivate := o.ranActivate }
    | none =>
      let r := applyForest dryRun rest
      { error := r.error, trees := o.tree :: r.trees,
        ranUpdate := o.ranUpdate || r.ranUpdate,
        ranActivate := o.ranActivate || r.ranActivate }

end

/-- Reads the applied latch at the root of a decree tree. -/
def rootApplied : DTree → Bool
  | .leaf _ s => s.applied
  | .group applied _ => applied

end DecreesBase

namespace Common

/-- Static data of one leaf decree as seen by Decree._apply of
src/autocracy/common.py:118: the result of the _needs_update detection and
the value of call_if_callable(only_if). -/
structure LeafConf : Type where
  needs_update : Bool
  should_activate : Bool
deriving DecidableEq

/-- Per-leaf runtime state. Each field models the instance-dictionary entry
for the corresponding attribute: none while the attribute still holds the
raising fallback descriptor, some b once _prepare or _apply assigned b. -/
structure LeafState : Type where
  applied : Option Bool
  updated : Option Bool
  activated : Option Bool
deriving DecidableEq

/-- Group runtime state in the common.py engine. The inst fields model the
instance-dictionary entries that Decree._prepare (src/autocracy/common.py:92)
assigns; because Python looks attributes up in the instance dictionary
before falling back to the non-data initializer descriptor, a some value
here shadows the lazily computed disjunction over the children. -/
structure GroupState : Type where
  instApplied : Option Bool
  instUpdated : Option Bool
  instActivated : Option Bool
  children : List (LeafConf × LeafState)
deriving DecidableEq

/-- Embeds Decree._prepare (src/autocracy/common.py:92) on a leaf: the
applied, updated and activated attributes are assigned False in the
instance dictionary. -/
def leafPrepare (_s : LeafState) : LeafState :=
  { applied := some false, updated := some false, activated := some false }

/-- Embeds Group._prepare (src/autocracy/common.py:173): the inherited
Decree._prepare assigns the three flags on the group itself, then every
child decree is prepared. -/
def groupPrepare (g : GroupState) : GroupState :=
  { instApplied := some false, instUpdated := some false, instActivated := some false,
    children := g.children.map (fun cs => (cs.1, leafPrepare cs.2)) }

/-- Embeds Decree._apply (src/autocracy/common.py:118) on a leaf: reading an
unassigned applied attribute raises the fallback RuntimeError; a truthy
applied raises the reuse RuntimeError; otherwise the update phase runs when
_needs_update reports so and sets updated, the activate phase runs when
only_if allows and sets activated, and the applied latch is set last. -/
def leafApply (c : LeafConf) (s : LeafState) : Except String LeafState :=
  match s.applied with
  | none => .error "not initialized yet"
  | some true => .error "refused attempt to run twice"
  | some false =>
    let s1 := if c.needs_update then { s with updated := some true } else s
    let s2 := if c.should_activate then { s1 with activated := some true } else s1
    .ok { s2 with applied := some true }

/-- Embeds Group._apply (src/autocracy/common.py:169): apply each child in
order; an exception propagates and leaves the remaining children untouched.
Group._apply itself neither checks nor assigns any group attribute. -/
def groupApplyChildren : List (LeafConf × LeafState) →
    Except String (List (LeafConf × LeafState))
  | [] => .ok []
  | (c, s) :: rest =>
    match leafApply c s with
    | .error e => .error e
    | .ok s2 =>
      match groupApplyChildren rest with
      | .error e => .error e
      | .ok rest2 => .ok ((c, s2) :: rest2)

/-- Embeds Group._apply at the group level: the group state is unchanged
apart from its children. -/
def groupApply (g : GroupState) : Except String GroupState :=
  match groupApplyChildren g.children with
  | .error e => .error e
  | .ok children2 => .ok { g with children := children2 }

/-- Embeds reading decree.updated on a leaf: the instance-dictionary entry
if assigned, otherwise the fallback raises (none). -/
def leafUpdatedRead (s : LeafState) : Option Bool := s.updated

/-- Embeds reading group.updated in the common.py engine: Python finds the
instance-dictionary entry first when one exists; only otherwise does the
initializer descriptor (src/autocracy/common.py:161) compute the
disjunction any(decree.updated for decree in decrees) and cache it. -/
def groupUpdatedRead (g : GroupState) : Option Bool :=
  match g.instUpdated with
  | some b => some b
  | none => some (g.children.any (fun cs => leafUpdatedRead cs.2 = some true))

/-- Embeds reading group.activated the same way, from the initializer at
src/autocracy/common.py:165. -/
def groupActivatedRead (g : GroupState) : Option Bool :=
  match g.instActivated with
  | some b => some b
  | none => some (g.children.any (fun cs => cs.2.activated = some true))

end Common

namespace Server

/-- Opaque repository file content. -/
abbrev Content := Nat

/-- Opaque stable identity fingerprint of a repository file; in the source
this is the stat_result captured when the file was read. -/
abbrev Fingerprint := Nat

/-- One entry of repository.files: the bytes read and the stat fingerprint. -/
structure RepoEntry : Type where
  content : Content
  fingerprint : Fingerprint
deriving DecidableEq

/-- Frames the controller sends to one agent during Client.apply
(src/autocracy/server.py:185): the two rsvp-less commands and raw binary
frames. -/
inductive Frame : Type
  | discard_files (paths : List String)
  | accept_files (paths : List String)
  | binary (content : Content)
deriving DecidableEq

/-- Embeds sorted() on a list of path strings. -/
def sortStrings (l : List String) : List String :=
  l.insertionSort (· ≤ ·)

/-- Embeds the content lookup new_content[key] on an association list of
repository entries. -/
def getContent (m : List (String × RepoEntry)) (k : String) : Content :=
  match Utils.lookupStr m k with
  | some e => e.content
  | none => 0

/-- Embeds the cache-delta part of Client.apply (src/autocracy/server.py:198):
compute the stale keys (known remotely but absent from the fresh repository
view) and send discard_files on the sorted list when non-empty; compute
new_content (repository files whose fingerprint differs from the remotely
known one, including files not known at all) and, when non-empty, send
accept_files on the sorted key list followed by one binary frame per key in
that same order; finally clear and refill remotely_known_files with the new
fingerprints. Returns the frames sent, in order, and the new cache. -/
def clientApplyFrames (known : List (String × Fingerprint))
    (repo : List (String × RepoEntry)) :
    List Frame × List (String × Fingerprint) :=
  let stale := (known.map Prod.fst).filter (fun k => (Utils.lookupStr repo k).isNone)
  let discardFrames := if stale.isEmpty then [] else [Frame.discard_files (sortStrings stale)]
  let new_content :=
    repo.filter (fun fe => decide (Utils.lookupStr known fe.1 ≠ some fe.2.fingerprint))
  let new_content_keys := sortStrings (new_content.map Prod.fst)
  let acceptFrames :=
    if new_content.isEmpty then []
    else Frame.accept_files new_content_keys ::
      new_content_keys.map (fun k => Frame.binary (getContent new_content k))
  (discardFrames ++ acceptFrames, repo.map (fun fe => (fe.1, fe.2.fingerprint)))

/-- Outcome of Server.client (src/autocracy/server.py:269) on a
certificate-bearing connection, identifying sessions by numeric ids. -/
inductive AdmissionOutcome : Type
  | confusingCert
  | conflict (closedOld : Nat)
  | admitted
deriving DecidableEq

/-- Embeds the agent branch of Server.client: a certificate with a number of
distinct common names different from one is answered with status 403; a
common name that already has a live entry in clients has that entry's
websocket closed and the request answered with status 409 without admitting
the new connection; otherwise the new session is admitted and registers
itself in clients (Client.__call__, src/autocracy/server.py:228). Returns
the outcome, the HTTP status of the response, and the clients map right
after admission. -/
def serverClientAdmission (clients : List (String × Nat)) (commonNames : List String)
    (newSession : Nat) : AdmissionOutcome × Nat × List (String × Nat) :=
  match commonNames with
  | [cn] =>
    match Utils.lookupStr clients cn with
    | some old => (.conflict old, 409, clients)
    | none => (.admitted, 201, Utils.insertStr clients cn newSession)
  | _ => (.confusingCert, 403, clients)

/-- Value found in the variables of the executed tags program; load_tags
keeps only the set-valued ones. -/
inductive PyVal : Type
  | strSet (members : List String)
  | other

/-- Embeds load_tags(get_file, 'tags') with subject None
(src/autocracy/common.py:1080): keep exactly the set-valued variables. -/
def load_tags (tagsVars : List (String × PyVal)) : List (String × List String) :=
  tagsVars.filterMap (fun kv =>
    match kv.2 with
    | .strSet ms => some (kv.1, ms)
    | .other => none)

/-- Embeds name.startswith('@'): tests the first character. -/
def startsWithAtSign (s : String) : Bool :=
  match s.toList with
  | c :: _ => c = '@'
  | [] => false

/-- Embeds name[1:]: the string without its first character. -/
def dropFirstChar (s : String) : String :=
  String.mk (s.toList.drop 1)

/-- Loop state of Admin.apply (src/autocracy/server.py:128): the lazily
loaded tags (none until the first at-name is seen), the accumulated
target_names set, the warnings issued, and how many times the tags program
was loaded from the repository. -/
structure NameLoopState : Type where
  tags : Option (List (String × List String))
  target_names : List String
  warnings : List String
  tagLoads : Nat

/-- Embeds one iteration of the name loop in Admin.apply: a name starting
with the at sign loads the tags on first use, then either warns about an
unknown tag or unions the tag members into target_names; the loop body has
no branch for any other name, so a literal common name changes nothing. -/
def processName (tagsVars : List (String × PyVal)) (st : NameLoopState)
    (name : String) : NameLoopState :=
  if Server.startsWithAtSign name then
    let loaded := match st.tags with
      | some t => (t, st.tagLoads)
      | none => (load_tags tagsVars, st.tagLoads + 1)
    match Utils.lookupStr loaded.1 (Server.dropFirstChar name) with
    | none =>
      { st with tags := some loaded.1, tagLoads := loaded.2,
                warnings := st.warnings ++ [name] }
    | some members =>
      { st with tags := some loaded.1, tagLoads := loaded.2,
                target_names := st.target_names ++ members }
  else st

/-- Result of Admin.apply as far as target resolution goes: the sessions
dispatched to (in clients-iteration order), the warnings, and the number of
repository tag loads. -/
structure AdminApplyResult : Type where
  dispatched : List Nat
  warnings : List String
  tagLoads : Nat
deriving DecidableEq

/-- Embeds the target resolution of Admin.apply: an empty names tuple
dispatches to every connected client; otherwise the name loop accumulates
target_names and the dispatch goes to the connected clients whose name is a
member. -/
def adminApply (clients : List (String × Nat)) (tagsVars : List (String × PyVal))
    (names : List String) : AdminApplyResult :=
  match names with
  | [] => { dispatched := clients.map Prod.snd, warnings := [], tagLoads := 0 }
  | _ =>
    let st := names.foldl (processName tagsVars)
      { tags := none, target_names := [], warnings := [], tagLoads := 0 }
    { dispatched :=
        (clients.filter (fun kv => decide (kv.1 ∈ st.target_names))).map Prod.snd,
      warnings := st.warnings, tagLoads := st.tagLoads }

end Server

namespace Rpc

/-- Outcome of awaiting one remote command: a successful reply, a false
reply raising CommandError, asyncio.wait_for raising TimeoutError, or the
send itself raising. The finally clause of remote_command behaves the same
in all four cases. -/
inductive Outcome : Type
  | success (args : List Nat)
  | commandError (message : String)
  | timeoutError
  | sendFailure
deriving DecidableEq

/-- One RPC session: its pending_commands table, keyed by correlation id. -/
structure Session : Type where
  pending_commands : List Nat
deriving DecidableEq

/-- A process: the class-level next_cid counter shared by every RPC instance
(src/autocracy/rpc.py:50 makes it a class attribute bound to
count().__next__), and the sessions alive in the process. -/
structure Process : Type where
  next_cid : Nat
  sessions : List Session
deriving DecidableEq

/-- Embeds one rsvp remote_command call (src/autocracy/rpc.py:59) on the
session at the given index: allocate cid from the shared counter, insert the
pending future, and, whatever the awaited outcome, pop the cid again in the
finally clause. Returns the process afterwards and the allocated cid. -/
def runCall (p : Process) (sessionIndex : Nat) (_outcome : Outcome) : Process × Nat :=
  let cid := p.next_cid
  let sessions :=
    match p.sessions.get? sessionIndex with
    | some s => p.sessions.set sessionIndex
        { pending_commands := (s.pending_commands ++ [cid]).erase cid }
    | none => p.sessions
  ({ next_cid := cid + 1, sessions := sessions }, cid)

/-- Runs a sequence of rsvp remote_command calls, each on some session of
the process, returning the final process and the allocated cids in call
order. -/
def runCalls : Process → List (Nat × Outcome) → Process × List Nat
  | p, [] => (p, [])
  | p, (i, o) :: rest =>
    let r := runCall p i o
    let rr := runCalls r.1 rest
    (rr.1, r.2 :: rr.2)

end Rpc

namespace Agent

/-- Embeds Client.discard_files of the agent (src/autocracy/client.py:180):
delete each named file from the local cache in order; a missing name raises
KeyError immediately, leaving the earlier deletions in place and the later
names untouched. Returns the missing name, if any, and the cache
afterwards. -/
def discard_files (files : List (String × Server.Content)) :
    List String → Option String × List (String × Server.Content)
  | [] => (none, files)
  | filename :: rest =>
    match Utils.lookupStr files filename with
    | none => (some filename, files)
    | some _ => discard_files (Utils.eraseStr files filename) rest

/-- A reply frame sent back for a cid-bearing request. -/
inductive Reply : Type
  | ok (cid : Nat) (results : List Nat)
  | err (cid : Nat) (message : String)
deriving DecidableEq

/-- Embeds RPC.handle_response (src/autocracy/rpc.py:93) wrapping the
discard_files handler: an exception becomes a false reply carrying the
message, a None result becomes a true reply with no results. -/
def handleDiscardFiles (cid : Nat) (files : List (String × Server.Content))
    (args : List String) : Reply × List (String × Server.Content) :=
  match discard_files files args with
  | (some missing, files2) => (.err cid missing, files2)
  | (none, files2) => (.ok cid [], files2)

/-- Folds Python del over a list of keys, for stating what discard_files
leaves behind. -/
def eraseKeys (files : List (String × Server.Content)) (ks : List String) :
    List (String × Server.Content) :=
  ks.foldl Utils.eraseStr files

end Agent

namespace Server

/-- Formalizes the words of claim C1 at one admission, for comparison with
the embedded code: on a connection whose certificate carries the single
common name cn, the controller admits the connection and the clients map
immediately afterwards maps cn to the new session. -/
def C1_claim_holds (clients : List (String × Nat)) (cn : String) (ns : Nat) : Prop :=
  (serverClientAdmission clients [cn] ns).1 = .admitted
  ∧ Utils.lookupStr (serverClientAdmission clients [cn] ns).2.2 cn = some ns

/-- Formalizes the selection described by claim C2, for comparison with the
embedded code: with a non-empty names list a session is selected when its
common name is itself one of the names or is a member of a tag set named by
an at-name; with an empty names list every connected session is selected. -/
def C2_claim_selected (clients : List (String × Nat)) (tagsVars : List (String × PyVal))
    (names : List String) (s : Nat) : Prop :=
  if names = [] then s ∈ clients.map Prod.snd
  else ∃ cn, (cn, s) ∈ clients ∧
    (cn ∈ names ∨ ∃ nm ∈ names, Server.startsWithAtSign nm = true ∧
      ∃ ms, Utils.lookupStr (load_tags tagsVars) (Server.dropFirstChar nm) = some ms ∧ cn ∈ ms)

/-- Formalizes claim C2 as a whole: the dispatched sessions are exactly the
selected ones. -/
def C2_claim_holds (clients : List (String × Nat)) (tagsVars : List (String × PyVal))
    (names : List String) : Prop :=
  ∀ s, s ∈ (adminApply clients tagsVars names).dispatched ↔
    C2_claim_selected clients tagsVars names s

/-- The selection the code actually performs for a non-empty names list:
only at-names select, through the loaded tag sets. -/
def TagSelected (tagsVars : List (String × PyVal)) (names : List String)
    (cn : String) : Prop :=
  ∃ nm ∈ names, Server.startsWithAtSign nm = true ∧
    ∃ ms, Utils.lookupStr (load_tags tagsVars) (Server.dropFirstChar nm) = some ms ∧ cn ∈ ms

/-- A path is stale when the agent holds it but the fresh repository view
does not contain it. -/
def staleSpec (known : List (String × Fingerprint)) (repo : List (String × RepoEntry))
    (k : String) : Prop :=
  k ∈ known.map Prod.fst ∧ Utils.lookupStr repo k = none

/-- A path is fresh when the repository view contains it with a fingerprint
different from the one recorded for the agent (including paths the agent
does not hold at all). -/
def freshSpec (known : List (String × Fingerprint)) (repo : List (String × RepoEntry))
    (p : String) : Prop :=
  ∃ e, (p, e) ∈ repo ∧ Utils.lookupStr known p ≠ some e.fingerprint

/-- Conclusion of claim C3 about one Client.apply cache delta: the frames
sent are a discard_files of the sorted stale paths (only when some path is
stale), then an accept_files of the sorted fresh paths followed by exactly
one binary frame per fresh path in that same order (only when some path is
fresh); an unchanged path appears in neither list; and the new cache maps
every path to the fresh repository fingerprint. -/
def C3_concl (known : List (String × Fingerprint))
    (repo : List (String × RepoEntry)) : Prop :=
  ∃ ds ks : List String,
    (clientApplyFrames known repo).1 =
      (if ds.isEmpty then [] else [Frame.discard_files ds]) ++
      (if ks.isEmpty then [] else
        Frame.accept_files ks :: ks.map (fun k => Frame.binary (getContent repo k)))
    ∧ List.Sorted (· ≤ ·) ds ∧ (∀ k, k ∈ ds ↔ staleSpec known repo k)
    ∧ List.Sorted (· ≤ ·) ks ∧ (∀ p, p ∈ ks ↔ freshSpec known repo p)
    ∧ (∀ p e, (p, e) ∈ repo → Utils.lookupStr known p = some e.fingerprint →
        p ∉ ds ∧ p ∉ ks)
    ∧ (∀ p, Utils.lookupStr (clientApplyFrames known repo).2 p =
        Option.map RepoEntry.fingerprint (Utils.lookupStr repo p))

end Server

namespace Rpc

/-- Invariant of a process: every pending correlation id was allocated
before the current counter value. -/
def ProcInv (p : Process) : Prop :=
  ∀ s ∈ p.sessions, ∀ c ∈ s.pending_commands, c < p.next_cid

/-- Conclusion of claim C9 for a sequence of reply-expecting remote_command
calls on arbitrary sessions of one process: the allocated cids are strictly
increasing in call order, no cid repeats, and after the calls no allocated
cid remains in any pending-commands table. -/
def C9_concl (p : Process) (calls : List (Nat × Outcome)) : Prop :=
  List.Pairwise (· < ·) (runCalls p calls).2
  ∧ (runCalls p calls).2.Nodup
  ∧ ∀ c ∈ (runCalls p calls).2, ∀ s ∈ (runCalls p calls).1.sessions,
      c ∉ s.pending_commands

end Rpc

/-! Theorems -/

namespace Utils

theorem normalizeLoop_wf (l : List String) :
    ∀ acc : List String, (∀ x ∈ acc, wfPart x = true ∧ x ≠ "..") →
      (∀ x ∈ l, wfPart x = true) →
      ∀ x ∈ normalizeLoop acc l, wfPart x = true ∧ x ≠ ".." := by
  induction l with
  | nil => intro acc hacc _ x hx; exact hacc x hx
  | cons part rest ih =>
    intro acc hacc hl x hx
    by_cases h2 : part = ".."
    · rw [normalizeLoop, if_pos h2] at hx
      exact ih acc.dropLast
        (fun y hy => hacc y ((List.dropLast_sublist acc).subset hy))
        (fun y hy => hl y (List.mem_cons_of_mem _ hy)) x hx
    · by_cases h1 : part = "."
      · rw [normalizeLoop, if_neg h2, if_pos h1] at hx
        exact ih acc hacc (fun y hy => hl y (List.mem_cons_of_mem _ hy)) x hx
      · rw [normalizeLoop, if_neg h2, if_neg h1] at hx
        refine ih (acc ++ [part]) ?_ (fun y hy => hl y (List.mem_cons_of_mem _ hy)) x hx
        intro y hy
        rcases List.mem_append.mp hy with hy | hy
        · exact hacc y hy
        · rcases List.mem_singleton.mp hy with rfl
          exact ⟨hl y (List.mem_cons_self _ _), h2⟩

theorem normalizeLoop_append_all (l : List String) :
    ∀ acc : List String, (∀ x ∈ l, x ≠ ".." ∧ x ≠ ".") →
      normalizeLoop acc l = acc ++ l := by
  induction l with
  | nil => intro acc _; simp [normalizeLoop]
  | cons part rest ih =>
    intro acc hl
    have hp := hl part (List.mem_cons_self _ _)
    rw [normalizeLoop, if_neg hp.1, if_neg hp.2,
      ih (acc ++ [part]) (fun y hy => hl y (List.mem_cons_of_mem _ hy))]
    simp

theorem normalize_path_idem (p : List String) :
    normalize_path (normalize_path p) = normalize_path p := by
  have hr : ∀ x ∈ normalize_path p, wfPart x = true ∧ x ≠ ".." := by
    refine normalizeLoop_wf _ [] (by simp) ?_
    intro x hx
    exact (List.mem_filter.mp hx).2
  rw [normalize_path, List.filter_eq_self.mpr (fun x hx => (hr x hx).1),
    normalizeLoop_append_all _ []]
  · simp
  · intro x hx
    refine ⟨(hr x hx).2, ?_⟩
    have hwf := (hr x hx).1
    simp only [wfPart, Bool.and_eq_true, bne_iff_ne] at hwf
    exact hwf.2

end Utils

/-- C8: normalize_path is idempotent — normalizing an already-normalized
path returns it unchanged — and on the concrete inputs "a/./b/../c", "/x/y"
and "../../a" it returns "a/c", "x/y" and "a"; it rejects no input (it is a
total function), "." segments are dropped, a ".." segment consumes the
nearest earlier component, and ".." segments that would climb above the
root are silently discarded, as the further concrete evaluations show. -/
theorem C8_normalize_path_idempotent :
    (∀ p : List String,
      Utils.normalize_path (Utils.normalize_path p) = Utils.normalize_path p)
    ∧ Utils.renderPath (Utils.normalize_path_str "a/./b/../c") = "a/c"
    ∧ Utils.renderPath (Utils.normalize_path_str "/x/y") = "x/y"
    ∧ Utils.renderPath (Utils.normalize_path_str "../../a") = "a"
    ∧ Utils.normalize_path_str "./x/." = ["x"]
    ∧ Utils.normalize_path_str "a/b/../../../c/d" = ["c", "d"]
    ∧ Utils.normalize_path_str "" = [] :=
  ⟨Utils.normalize_path_idem, by decide, by decide, by decide, by decide,
    by decide, by decide⟩

namespace Loader

/-- Invariant of the loader state: no file appears twice in the execution
trace, and every executed file is recorded in the seen set. -/
def LoadInv (st : LoadState) : Prop :=
  st.evaluated.Nodup ∧ ∀ f ∈ st.evaluated, f ∈ st.seen

/-- A load closure preserves the loader invariant and only grows the seen
set. -/
def PreservesInv (loadfn : String → Bool → LoadState → Except LoadErr LoadState) : Prop :=
  ∀ path ig st st2, loadfn path ig st = .ok st2 → LoadInv st →
    LoadInv st2 ∧ ∀ x ∈ st.seen, x ∈ st2.seen

theorem runDirectives_inv (loadfn : String → Bool → LoadState → Except LoadErr LoadState)
    (h : PreservesInv loadfn) :
    ∀ (ds : List Directive) (st st2 : LoadState),
      runDirectives loadfn ds st = .ok st2 → LoadInv st →
      LoadInv st2 ∧ ∀ x ∈ st.seen, x ∈ st2.seen := by
  intro ds
  induction ds with
  | nil =>
    intro st st2 hrun hinv
    simp only [runDirectives] at hrun
    cases hrun
    exact ⟨hinv, fun x hx => hx⟩
  | cons d rest ih =>
    intro st st2 hrun hinv
    cases d with
    | inc p =>
      simp only [runDirectives] at hrun
      cases hl : loadfn p false st with
      | error e => rw [hl] at hrun; cases hrun
      | ok stm =>
        rw [hl] at hrun
        obtain ⟨m1, m2⟩ := h p false st stm hl hinv
        obtain ⟨n1, n2⟩ := ih stm st2 hrun m1
        exact ⟨n1, fun x hx => n2 x (m2 x hx)⟩
    | req p =>
      simp only [runDirectives] at hrun
      cases hl : loadfn p true st with
      | error e => rw [hl] at hrun; cases hrun
      | ok stm =>
        rw [hl] at hrun
        obtain ⟨m1, m2⟩ := h p true st stm hl hinv
        obtain ⟨n1, n2⟩ := ih stm st2 hrun m1
        exact ⟨n1, fun x hx => n2 x (m2 x hx)⟩

theorem load_inv (repo : List (String × List Directive)) :
    ∀ fuel : Nat, PreservesInv (load repo fuel) := by
  intro fuel
  induction fuel with
  | zero =>
    intro path ig st st2 hload
    simp only [load] at hload
    cases hload
  | succ fuel ih =>
    intro path ig st st2 hload hinv
    simp only [load] at hload
    by_cases hseen : pyFilename path ∈ st.seen
    · rw [if_pos hseen] at hload
      cases ig with
      | true =>
        rw [if_pos rfl] at hload
        cases hload
        exact ⟨hinv, fun x hx => hx⟩
      | false =>
        rw [if_neg Bool.false_ne_true] at hload
        cases hload
    · rw [if_neg hseen] at hload
      cases hrepo : Utils.lookupStr repo (pyFilename path) with
      | none => rw [hrepo] at hload; cases hload
      | some directives =>
        rw [hrepo] at hload
        have hmid : LoadInv (LoadState.mk (pyFilename path :: st.seen)
            (st.evaluated ++ [pyFilename path])) := by
          constructor
          · rw [List.nodup_append]
            refine ⟨hinv.1, List.nodup_singleton _, ?_⟩
            intro x hx hx2
            rcases List.mem_singleton.mp hx2 with rfl
            exact hseen (hinv.2 _ hx)
          · intro f hf
            rcases List.mem_append.mp hf with hf | hf
            · exact List.mem_cons_of_mem _ (hinv.2 f hf)
            · rcases List.mem_singleton.mp hf with rfl
              exact List.mem_cons_self _ _
        obtain ⟨n1, n2⟩ := runDirectives_inv (load repo fuel) ih directives _ st2 hload hmid
        exact ⟨n1, fun x hx => n2 x (List.mem_cons_of_mem _ hx)⟩

end Loader

/-- C7: within a single policy load, include of a path whose normalized
filename was already loaded raises DuplicateConfigfile, require of such a
path returns silently with the loader state unchanged and in particular
evaluates nothing, and every load that completes evaluates each file at
most once (the execution trace carries no duplicates). -/
theorem C7_include_require_duplicates :
    (∀ (repo : List (String × List Loader.Directive)) (fuel : Nat) (path : String)
        (st : Loader.LoadState), Loader.pyFilename path ∈ st.seen →
      Loader.load repo (fuel + 1) path false st =
        .error (.duplicateConfigfile path))
    ∧ (∀ (repo : List (String × List Loader.Directive)) (fuel : Nat) (path : String)
        (st : Loader.LoadState), Loader.pyFilename path ∈ st.seen →
      Loader.load repo (fuel + 1) path true st = .ok st)
    ∧ (∀ (repo : List (String × List Loader.Directive)) (fuel : Nat) (filename : String)
        (st2 : Loader.LoadState),
      Loader.load_from_repository repo fuel filename = .ok st2 →
      st2.evaluated.Nodup) := by
  refine ⟨?_, ?_, ?_⟩
  · intro repo fuel path st hseen
    simp only [Loader.load, if_pos hseen]
    rw [if_neg Bool.false_ne_true]
  · intro repo fuel path st hseen
    simp only [Loader.load, if_pos hseen]
    rw [if_pos trivial]
  · intro repo fuel filename st2 hload
    have h := Loader.load_inv repo fuel filename false _ st2 hload
      ⟨List.nodup_nil, by intro f hf; cases hf⟩
    exact h.1.1

/-- Witness for C7 at concrete inputs: with "x.py" already loaded, include
of "x" raises DuplicateConfigfile while require of "x" succeeds without
touching the state; and a successful load of a policy that requires the
same library twice evaluates each of the two files exactly once. -/
theorem C7_include_require_duplicates_witness :
    (Loader.pyFilename "x" ∈ (["x.py"] : List String)
      ∧ Loader.load [] 1 "x" false { seen := ["x.py"], evaluated := ["x.py"] } =
          .error (.duplicateConfigfile "x")
      ∧ Loader.load [] 1 "x" true { seen := ["x.py"], evaluated := ["x.py"] } =
          .ok { seen := ["x.py"], evaluated := ["x.py"] })
    ∧ (Loader.load_from_repository
          [("policy.py", [.req "lib", .req "lib"]), ("lib.py", [])] 3 "policy" =
        .ok { seen := ["lib.py", "policy.py"], evaluated := ["policy.py", "lib.py"] }
      ∧ (["policy.py", "lib.py"] : List String).Nodup) :=
  ⟨⟨by decide,
    C7_include_require_duplicates.1 [] 0 "x" { seen := ["x.py"], evaluated := ["x.py"] }
      (by decide),
    C7_include_require_duplicates.2.1 [] 0 "x" { seen := ["x.py"], evaluated := ["x.py"] }
      (by decide)⟩,
   ⟨rfl,
    C7_include_require_duplicates.2.2
      [("policy.py", [.req "lib", .req "lib"]), ("lib.py", [])] 3 "policy"
      { seen := ["lib.py", "policy.py"], evaluated := ["policy.py", "lib.py"] } rfl⟩⟩

namespace DecreesBase

theorem decreeApply_applied (c : DecreeConf) (dr : Bool) (s : DecreeState) :
    (decreeApply c dr s).state.applied = true := by
  unfold decreeApply
  split_ifs with h1 h2 h3
  · exact h1
  all_goals rfl

theorem decreeApply_reuse (c : DecreeConf) (dr : Bool) (s : DecreeState)
    (h : s.applied = true) :
    decreeApply c dr s =
      { error := some .reuseError, state := s,
        ranDetect := false, ranUpdate := false, ranActivate := false } := by
  unfold decreeApply
  rw [if_pos h]

theorem applyTree_rootApplied (dr : Bool) (t : DTree) :
    rootApplied (applyTree dr t).tree = true := by
  cases t with
  | leaf c s =>
    simp only [applyTree, rootApplied]
    exact decreeApply_applied c dr s
  | group applied children =>
    by_cases h : applied
    · simp only [applyTree, if_pos h, rootApplied]
      exact h
    · simp only [applyTree, if_neg h, rootApplied]

theorem applyTree_reuse (dr : Bool) (t : DTree) (h : rootApplied t = true) :
    applyTree dr t =
      { error := some .reuseError, tree := t,
        ranUpdate := false, ranActivate := false } := by
  cases t with
  | leaf c s =>
    simp only [rootApplied] at h
    simp only [applyTree, decreeApply_reuse c dr s h]
  | group applied children =>
    simp only [rootApplied] at h
    simp only [applyTree, if_pos h]

end DecreesBase

/-- C6: applying a decree tree a second time, after a first apply attempt
with any dry_run flags and whether or not that first apply succeeded, fails
with the reuse RuntimeError, leaves the tree untouched and runs no update
and no activation phase. -/
theorem C6_reapply_rejected (t : DecreesBase.DTree) (dr1 dr2 : Bool) :
    DecreesBase.applyTree dr2 (DecreesBase.applyTree dr1 t).tree =
      { error := some .reuseError, tree := (DecreesBase.applyTree dr1 t).tree,
        ranUpdate := false, ranActivate := false } :=
  DecreesBase.applyTree_reuse dr2 _ (DecreesBase.applyTree_rootApplied dr1 t)

/-- C4: evaluating Decree._apply of decrees/base.py at a decree whose
detection reports that an update is needed and that has an _update method.
With dry_run False the apply raises NameError on the undefined name xyzzy
before the update phase can run, updated is never assigned and activation is
never reached, contradicting the claim that updated becomes true exactly
when the update phase ran; with dry_run True the detection runs, no phase
has side effects and updated is set to true, as the claim states. -/
theorem C4_wet_update_raises_name_error :
    (DecreesBase.decreeApply
        { update_needed := true, has_update := true,
          has_activate := true, should_activate := true }
        false { applied := false, updated := none, activated := none } =
      { error := some .nameErrorXyzzy,
        state := { applied := true, updated := none, activated := none },
        ranDetect := true, ranUpdate := false, ranActivate := false })
    ∧ (DecreesBase.decreeApply
        { update_needed := true, has_update := true,
          has_activate := true, should_activate := true }
        true { applied := false, updated := none, activated := none } =
      { error := none,
        state := { applied := true, updated := some true, activated := some true },
        ranDetect := true, ranUpdate := false, ranActivate := false }) :=
  ⟨rfl, rfl⟩

/-- C5: in the common.py engine, Decree._prepare writes updated = False and
activated = False into the instance dictionary of every decree, the group
included; those entries shadow the initializer descriptors that would
compute the disjunction over the children, so after preparing and applying
a group whose only child updates, reading group.updated still yields False
although a child has updated = True, and group.activated likewise stays
False. -/
theorem C5_common_group_updated_stays_false :
    (Common.groupApply (Common.groupPrepare
        { instApplied := none, instUpdated := none, instActivated := none,
          children := [({ needs_update := true, should_activate := false },
            { applied := none, updated := none, activated := none })] }) =
      .ok { instApplied := some false, instUpdated := some false,
            instActivated := some false,
            children := [({ needs_update := true, should_activate := false },
              { applied := some true, updated := some true, activated := some false })] })
    ∧ Common.groupUpdatedRead
        { instApplied := some false, instUpdated := some false,
          instActivated := some false,
          children := [({ needs_update := true, should_activate := false },
            { applied := some true, updated := some true, activated := some false })] } =
        some false
    ∧ ((List.any
          [(({ needs_update := true, should_activate := false } : Common.LeafConf),
            ({ applied := some true, updated := some true,
               activated := some false } : Common.LeafState))]
          (fun cs => Common.leafUpdatedRead cs.2 = some true)) = true)
    ∧ Common.groupActivatedRead
        { instApplied := some false, instUpdated := some false,
          instActivated := some false,
          children := [({ needs_update := true, should_activate := false },
            { applied := some true, updated := some true, activated := some false })] } =
        some false :=
  ⟨rfl, rfl, rfl, rfl⟩

namespace Utils

theorem lookupStr_insertStr_self {α : Type} (m : List (String × α)) (k : String) (v : α) :
    lookupStr (insertStr m k v) k = some v := by
  induction m with
  | nil => simp [insertStr, lookupStr]
  | cons kv rest ih =>
    obtain ⟨k2, v2⟩ := kv
    by_cases h : k2 = k
    · simp [insertStr, h, lookupStr]
    · simp [insertStr, h, lookupStr, ih]

end Utils

/-- C1 (amended): when the common name of an incoming agent connection
already has a live session in the clients map, the controller closes that
prior session's websocket but rejects the new connection with status 409 and
leaves the clients map unchanged, so the new session is not registered; a
common name without a live session is admitted with status 201 and is
registered, after which clients maps it to the new session. -/
theorem C1_takeover_closes_old_and_rejects :
    ∀ (clients : List (String × Nat)) (cn : String) (ns old : Nat),
      (Utils.lookupStr clients cn = some old →
        Server.serverClientAdmission clients [cn] ns =
          (.conflict old, 409, clients))
      ∧ (Utils.lookupStr clients cn = none →
        Server.serverClientAdmission clients [cn] ns =
          (.admitted, 201, Utils.insertStr clients cn ns)
        ∧ Utils.lookupStr (Server.serverClientAdmission clients [cn] ns).2.2 cn =
            some ns) := by
  intro clients cn ns old
  constructor
  · intro h
    simp [Server.serverClientAdmission, h]
  · intro h
    refine ⟨by simp [Server.serverClientAdmission, h], ?_⟩
    simp [Server.serverClientAdmission, h, Utils.lookupStr_insertStr_self]

/-- Counterexample to C1 as stated: with session 0 registered for "h1", a
new connection bearing common name "h1" is not admitted and the clients map
does not map "h1" to the new session afterwards. -/
theorem C1_counterexample : ¬ Server.C1_claim_holds [("h1", 0)] "h1" 1 := by
  intro h
  exact absurd h.1 (by decide)

/-- Witness for C1 (amended) at concrete inputs: a duplicate common name is
answered with conflict 409 and an untouched map; a fresh common name is
admitted and registered. -/
theorem C1_takeover_witness :
    (Utils.lookupStr [("h1", 0)] "h1" = some 0
      ∧ Server.serverClientAdmission [("h1", 0)] ["h1"] 1 =
          (.conflict 0, 409, [("h1", 0)]))
    ∧ (Utils.lookupStr ([] : List (String × Nat)) "h1" = none
      ∧ Server.serverClientAdmission [] ["h1"] 1 =
          (.admitted, 201, Utils.insertStr [] "h1" 1)
        ∧ Utils.lookupStr (Server.serverClientAdmission [] ["h1"] 1).2.2 "h1" =
            some 1) :=
  ⟨⟨by decide,
    (C1_takeover_closes_old_and_rejects [("h1", 0)] "h1" 1 0).1 (by decide)⟩,
   ⟨by decide,
    (C1_takeover_closes_old_and_rejects [] "h1" 1 0).2 (by decide)⟩⟩


namespace Server

theorem tagSelected_nil (tagsVars : List (String × PyVal)) (x : String) :
    ¬ TagSelected tagsVars [] x := by
  rintro ⟨nm, hnm, _⟩
  cases hnm

theorem tagSelected_cons (tagsVars : List (String × PyVal)) (nm : String)
    (rest : List String) (x : String) :
    TagSelected tagsVars (nm :: rest) x ↔
      (Server.startsWithAtSign nm = true ∧
        ∃ ms, Utils.lookupStr (load_tags tagsVars) (Server.dropFirstChar nm) = some ms ∧ x ∈ ms)
      ∨ TagSelected tagsVars rest x := by
  constructor
  · rintro ⟨nm2, hmem, hat, hsel⟩
    rcases List.mem_cons.mp hmem with rfl | hmem
    · exact Or.inl ⟨hat, hsel⟩
    · exact Or.inr ⟨nm2, hmem, hat, hsel⟩
  · rintro (⟨hat, hsel⟩ | ⟨nm2, hmem, hat, hsel⟩)
    · exact ⟨nm, List.mem_cons_self _ _, hat, hsel⟩
    · exact ⟨nm2, List.mem_cons_of_mem _ hmem, hat, hsel⟩

theorem processName_not_at (tagsVars : List (String × PyVal)) (st : NameLoopState)
    (nm : String) (hat : Server.startsWithAtSign nm = false) :
    processName tagsVars st nm = st := by
  simp [processName, hat]

theorem processName_at_unknown (tagsVars : List (String × PyVal))
    (st : NameLoopState) (nm : String) (hat : Server.startsWithAtSign nm = true)
    (hst : st.tags = none ∨ st.tags = some (load_tags tagsVars))
    (hlk : Utils.lookupStr (load_tags tagsVars) (Server.dropFirstChar nm) = none) :
    processName tagsVars st nm =
      { st with
          tags := some (load_tags tagsVars),
          tagLoads := st.tagLoads + (if st.tags.isNone then 1 else 0),
          warnings := st.warnings ++ [nm] } := by
  rcases hst with hst | hst <;>
    simp [processName, hat, hst, hlk]

theorem processName_at_known (tagsVars : List (String × PyVal))
    (st : NameLoopState) (nm : String) (members : List String)
    (hat : Server.startsWithAtSign nm = true)
    (hst : st.tags = none ∨ st.tags = some (load_tags tagsVars))
    (hlk : Utils.lookupStr (load_tags tagsVars) (Server.dropFirstChar nm) = some members) :
    processName tagsVars st nm =
      { st with
          tags := some (load_tags tagsVars),
          tagLoads := st.tagLoads + (if st.tags.isNone then 1 else 0),
          target_names := st.target_names ++ members } := by
  rcases hst with hst | hst <;>
    simp [processName, hat, hst, hlk]

theorem foldl_processName (tagsVars : List (String × PyVal)) :
    ∀ (names : List String) (st : NameLoopState),
      (st.tags = none ∨ st.tags = some (load_tags tagsVars)) →
      ((∀ x, x ∈ (names.foldl (processName tagsVars) st).target_names ↔
          (x ∈ st.target_names ∨ TagSelected tagsVars names x))
      ∧ (names.foldl (processName tagsVars) st).warnings =
          st.warnings ++ names.filter (fun nm => Server.startsWithAtSign nm &&
            (Utils.lookupStr (load_tags tagsVars) (Server.dropFirstChar nm)).isNone)
      ∧ (names.foldl (processName tagsVars) st).tags =
          (if names.any (fun nm => Server.startsWithAtSign nm) then some (load_tags tagsVars)
           else st.tags)
      ∧ (names.foldl (processName tagsVars) st).tagLoads =
          st.tagLoads +
            (if st.tags.isNone && names.any (fun nm => Server.startsWithAtSign nm) then 1
             else 0)) := by
  intro names
  induction names with
  | nil =>
    intro st _
    refine ⟨?_, by simp, by simp, by simp⟩
    intro x
    simp only [List.foldl_nil]
    exact ⟨Or.inl, fun h => h.elim id (fun h2 => absurd h2 (tagSelected_nil _ _))⟩
  | cons nm rest ih =>
    intro st hst
    rw [List.foldl_cons]
    by_cases hat : Server.startsWithAtSign nm = true
    · cases hlk : Utils.lookupStr (load_tags tagsVars) (Server.dropFirstChar nm) with
      | none =>
        rw [processName_at_unknown tagsVars st nm hat hst hlk]
        obtain ⟨a, b, c, d⟩ := ih (NameLoopState.mk (some (load_tags tagsVars))
          st.target_names (st.warnings ++ [nm])
          (st.tagLoads + (if st.tags.isNone then 1 else 0))) (Or.inr rfl)
        refine ⟨?_, ?_, ?_, ?_⟩
        · intro x
          rw [a x]
          rw [tagSelected_cons]
          constructor
          · rintro (hx | hx)
            · exact Or.inl hx
            · exact Or.inr (Or.inr hx)
          · rintro (hx | (⟨_, ms, hms, _⟩ | hx))
            · exact Or.inl hx
            · rw [hlk] at hms; cases hms
            · exact Or.inr hx
        · rw [b]
          simp only [List.filter_cons, hat, hlk, Option.isNone_none,
            Bool.and_true, if_true]
          simp [List.append_assoc]
        · rw [c]
          simp [hat]
        · rw [d]
          simp only [Option.isNone_some, Bool.false_and, if_false, Nat.add_zero,
            List.any_cons, hat, Bool.true_or]
          rcases hst with hst | hst <;> simp [hst]
      | some members =>
        rw [processName_at_known tagsVars st nm members hat hst hlk]
        obtain ⟨a, b, c, d⟩ := ih (NameLoopState.mk (some (load_tags tagsVars))
          (st.target_names ++ members) st.warnings
          (st.tagLoads + (if st.tags.isNone then 1 else 0))) (Or.inr rfl)
        refine ⟨?_, ?_, ?_, ?_⟩
        · intro x
          rw [a x]
          rw [tagSelected_cons]
          simp only [List.mem_append]
          constructor
          · rintro ((hx | hx) | hx)
            · exact Or.inl hx
            · exact Or.inr (Or.inl ⟨hat, members, hlk, hx⟩)
            · exact Or.inr (Or.inr hx)
          · rintro (hx | (⟨_, ms, hms, hxms⟩ | hx))
            · exact Or.inl (Or.inl hx)
            · rw [hlk] at hms
              cases hms
              exact Or.inl (Or.inr hxms)
            · exact Or.inr hx
        · rw [b]
          simp [List.filter_cons, hat, hlk]
        · rw [c]
          simp [hat]
        · rw [d]
          simp only [Option.isNone_some, Bool.false_and, if_false, Nat.add_zero,
            List.any_cons, hat, Bool.true_or]
          rcases hst with hst | hst <;> simp [hst]
    · have hatf : Server.startsWithAtSign nm = false := by
        cases h2 : Server.startsWithAtSign nm with
        | true => exact absurd h2 hat
        | false => rfl
      rw [processName_not_at tagsVars st nm hatf]
      obtain ⟨a, b, c, d⟩ := ih st hst
      refine ⟨?_, ?_, ?_, ?_⟩
      · intro x
        rw [a x]
        rw [tagSelected_cons]
        constructor
        · rintro (hx | hx)
          · exact Or.inl hx
          · exact Or.inr (Or.inr hx)
        · rintro (hx | (⟨hcontr, _⟩ | hx))
          · exact Or.inl hx
          · rw [hatf] at hcontr; cases hcontr
          · exact Or.inr hx
      · rw [b]
        simp [List.filter_cons, hatf]
      · rw [c]
        simp [hatf]
      · rw [d]
        simp [hatf]

end Server

/-- C2 (amended): in Admin.apply target resolution, an empty names list
dispatches to every connected agent; with a non-empty names list only names
of the form at-tag select agents — each such name is expanded, through the
tag sets loaded at most once from the repository's tags program, to that
tag's member CNs, unknown tags are skipped with a warning — while a literal
CN name is ignored by the loop and selects nothing; the dispatch goes to the
connected agents whose CN is in the union of the tag expansions. -/
theorem C2_tag_only_selection (clients : List (String × Nat))
    (tagsVars : List (String × Server.PyVal)) (names : List String) :
    ((Server.adminApply clients tagsVars names).warnings =
      names.filter (fun nm => Server.startsWithAtSign nm &&
        (Utils.lookupStr (Server.load_tags tagsVars) (Server.dropFirstChar nm)).isNone))
    ∧ (Server.adminApply clients tagsVars names).tagLoads ≤ 1
    ∧ ((Server.adminApply clients tagsVars names).tagLoads = 0 ↔
        ∀ nm ∈ names, Server.startsWithAtSign nm = false)
    ∧ (names = [] →
        (Server.adminApply clients tagsVars names).dispatched = clients.map Prod.snd)
    ∧ (names ≠ [] → ∀ s,
        s ∈ (Server.adminApply clients tagsVars names).dispatched ↔
          ∃ cn, (cn, s) ∈ clients ∧ Server.TagSelected tagsVars names cn) := by
  cases names with
  | nil =>
    refine ⟨by simp [Server.adminApply], by simp [Server.adminApply],
      by simp [Server.adminApply], fun _ => by simp [Server.adminApply],
      fun h => absurd rfl h⟩
  | cons nm rest =>
    obtain ⟨a, b, c, d⟩ := Server.foldl_processName tagsVars (nm :: rest)
      (Server.NameLoopState.mk none [] [] 0) (Or.inl rfl)
    have happly : Server.adminApply clients tagsVars (nm :: rest) =
        { dispatched := (clients.filter (fun kv => decide (kv.1 ∈
            ((nm :: rest).foldl (Server.processName tagsVars)
              (Server.NameLoopState.mk none [] [] 0)).target_names))).map Prod.snd,
          warnings := ((nm :: rest).foldl (Server.processName tagsVars)
            (Server.NameLoopState.mk none [] [] 0)).warnings,
          tagLoads := ((nm :: rest).foldl (Server.processName tagsVars)
            (Server.NameLoopState.mk none [] [] 0)).tagLoads } := rfl
    refine ⟨?_, ?_, ?_, fun h => absurd h (List.cons_ne_nil nm rest), ?_⟩
    · rw [happly, b]
      rfl
    · rw [happly]
      show ((nm :: rest).foldl (Server.processName tagsVars)
        (Server.NameLoopState.mk none [] [] 0)).tagLoads ≤ 1
      rw [d]
      by_cases hany : (nm :: rest).any (fun nm2 => Server.startsWithAtSign nm2) = true
      · simp [hany]
      · simp [Bool.eq_false_iff.mpr hany]
    · rw [happly]
      show ((nm :: rest).foldl (Server.processName tagsVars)
          (Server.NameLoopState.mk none [] [] 0)).tagLoads = 0 ↔ _
      rw [d]
      by_cases hany : (nm :: rest).any (fun nm2 => Server.startsWithAtSign nm2) = true
      · simp only [hany, Option.isNone_none, Bool.true_and, if_true]
        constructor
        · intro h; cases h
        · intro hall
          obtain ⟨x, hx, hxat⟩ := List.any_eq_true.mp hany
          rw [hall x hx] at hxat
          cases hxat
      · have hany2 : (nm :: rest).any (fun nm2 => Server.startsWithAtSign nm2) = false :=
          Bool.eq_false_iff.mpr hany
        simp only [hany2, Option.isNone_none, Bool.true_and, Bool.and_false, if_false]
        constructor
        · intro _ nm2 hnm2
          by_contra hcontr
          have h2 : Server.startsWithAtSign nm2 = true := by
            cases h3 : Server.startsWithAtSign nm2 with
            | true => rfl
            | false => exact absurd h3 hcontr
          have hco : (nm :: rest).any (fun nm2 => Server.startsWithAtSign nm2) = true :=
            List.any_eq_true.mpr ⟨nm2, hnm2, h2⟩
          rw [hany2] at hco
          cases hco
        · intro _; rfl
    · intro _ s
      rw [happly]
      show s ∈ (clients.filter (fun kv => decide (kv.1 ∈
          ((nm :: rest).foldl (Server.processName tagsVars)
            (Server.NameLoopState.mk none [] [] 0)).target_names))).map Prod.snd ↔ _
      constructor
      · intro hs
        obtain ⟨kv, hkv, hkv2⟩ := List.mem_map.mp hs
        obtain ⟨cn2, v2⟩ := kv
        obtain ⟨hmem, hpred⟩ := List.mem_filter.mp hkv
        cases hkv2
        refine ⟨cn2, hmem, ?_⟩
        have hx := of_decide_eq_true hpred
        rcases (a cn2).mp hx with hcontr | hsel
        · cases hcontr
        · exact hsel
      · rintro ⟨cn, hmem, hsel⟩
        refine List.mem_map.mpr ⟨(cn, s), List.mem_filter.mpr ⟨hmem, ?_⟩, rfl⟩
        exact decide_eq_true ((a cn).mpr (Or.inr hsel))

/-- Counterexample to C2 as stated: with agent "h1" connected (session 7)
and apply("h1") invoked with that literal CN, the claim selects session 7
but the code dispatches to nothing, because the name loop ignores every
name that does not start with the at sign. -/
theorem C2_counterexample : ¬ Server.C2_claim_holds [("h1", 7)] [] ["h1"] := by
  intro h
  have hsel : Server.C2_claim_selected [("h1", 7)] [] ["h1"] 7 := by
    rw [Server.C2_claim_selected, if_neg (by decide)]
    exact ⟨"h1", by decide, Or.inl (by decide)⟩
  exact absurd ((h 7).mpr hsel) (by decide)

/-- Witness for C2 (amended) at concrete inputs: with connected agents h1
and h3 and the tag role_web equal to the set containing h1 and h2,
apply("@role_web") dispatches exactly to h1's session, and an empty names
list dispatches to every connected agent. -/
theorem C2_tag_only_selection_witness :
    ((["@role_web"] : List String) ≠ []
      ∧ (5 ∈ (Server.adminApply [("h1", 5), ("h3", 6)]
            [("role_web", .strSet ["h1", "h2"])] ["@role_web"]).dispatched ↔
          ∃ cn, (cn, 5) ∈ [("h1", 5), ("h3", 6)] ∧
            Server.TagSelected [("role_web", .strSet ["h1", "h2"])] ["@role_web"] cn))
    ∧ (Server.adminApply [("h1", 5), ("h3", 6)] [("role_web", .strSet ["h1", "h2"])]
        ([] : List String)).dispatched = [("h1", 5), ("h3", 6)].map Prod.snd :=
  ⟨⟨by decide,
    (C2_tag_only_selection [("h1", 5), ("h3", 6)] [("role_web", .strSet ["h1", "h2"])]
      ["@role_web"]).2.2.2.2 (by decide) 5⟩,
   (C2_tag_only_selection [("h1", 5), ("h3", 6)] [("role_web", .strSet ["h1", "h2"])]
      []).2.2.2.1 rfl⟩

namespace Utils

theorem lookupStr_eq_none_iff {α : Type} (m : List (String × α)) (k : String) :
    lookupStr m k = none ↔ k ∉ m.map Prod.fst := by
  induction m with
  | nil => simp [lookupStr]
  | cons kv rest ih =>
    obtain ⟨k2, v2⟩ := kv
    by_cases h : k2 = k
    · subst h
      simp [lookupStr]
    · simp only [lookupStr, if_neg h, List.map_cons, List.mem_cons, ih]
      constructor
      · rintro hnot (hx | hx)
        · exact h hx.symm
        · exact hnot hx
      · intro hnot hx
        exact hnot (Or.inr hx)

theorem lookupStr_eq_some_of_mem {α : Type} (m : List (String × α)) (k : String)
    (v : α) (hnd : (m.map Prod.fst).Nodup) (hmem : (k, v) ∈ m) :
    lookupStr m k = some v := by
  induction m with
  | nil => cases hmem
  | cons kv rest ih =>
    obtain ⟨k2, v2⟩ := kv
    rw [List.map_cons, List.nodup_cons] at hnd
    rcases List.mem_cons.mp hmem with heq | hmem2
    · cases heq
      simp [lookupStr]
    · have hne : k2 ≠ k := by
        intro h
        subst h
        exact hnd.1 (List.mem_map.mpr ⟨(k2, v), hmem2, rfl⟩)
      simp only [lookupStr, if_neg hne]
      exact ih hnd.2 hmem2

theorem mem_of_lookupStr_eq_some {α : Type} (m : List (String × α)) (k : String)
    (v : α) (h : lookupStr m k = some v) : (k, v) ∈ m := by
  induction m with
  | nil => cases h
  | cons kv rest ih =>
    obtain ⟨k2, v2⟩ := kv
    by_cases h2 : k2 = k
    · subst h2
      rw [lookupStr, if_pos rfl] at h
      cases h
      exact List.mem_cons_self _ _
    · rw [lookupStr, if_neg h2] at h
      exact List.mem_cons_of_mem _ (ih h)

theorem lookupStr_map_snd {α β : Type} (m : List (String × α)) (f : α → β)
    (k : String) :
    lookupStr (m.map (fun kv => (kv.1, f kv.2))) k = (lookupStr m k).map f := by
  induction m with
  | nil => simp [lookupStr]
  | cons kv rest ih =>
    obtain ⟨k2, v2⟩ := kv
    by_cases h : k2 = k
    · simp [lookupStr, h]
    · simp [lookupStr, h, ih]

end Utils

namespace Server

theorem mem_sortStrings (l : List String) (x : String) :
    x ∈ sortStrings l ↔ x ∈ l :=
  (List.perm_insertionSort (· ≤ ·) l).mem_iff

theorem sorted_sortStrings (l : List String) :
    List.Sorted (· ≤ ·) (sortStrings l) :=
  List.sorted_insertionSort (· ≤ ·) l

theorem sortStrings_isEmpty (l : List String) :
    (sortStrings l).isEmpty = l.isEmpty := by
  cases l with
  | nil => rfl
  | cons a l =>
    cases hs : sortStrings (a :: l) with
    | nil =>
      have hperm := List.perm_insertionSort (· ≤ ·) (a :: l)
      rw [show List.insertionSort (· ≤ ·) (a :: l) = sortStrings (a :: l) from rfl,
        hs] at hperm
      cases hperm.symm.eq_nil
    | cons b m => rfl

end Server

/-- C3: the cache delta of one per-agent apply. The frames sent are a
discard_files carrying the sorted list of paths known remotely but absent
from the fresh repository view (sent only when that list is non-empty),
then an accept_files carrying the sorted list of paths whose fresh
fingerprint differs from the recorded one, followed by exactly one binary
frame per such path, with the repository content of that path, in the same
sorted order (sent only when non-empty); a path with an unchanged
fingerprint appears in neither list; and afterwards the remotely-known
cache maps exactly the repository paths to their fresh fingerprints. -/
theorem C3_cache_delta (known : List (String × Server.Fingerprint))
    (repo : List (String × Server.RepoEntry))
    (_hk : (known.map Prod.fst).Nodup) (hr : (repo.map Prod.fst).Nodup) :
    Server.C3_concl known repo := by
  refine ⟨Server.sortStrings ((known.map Prod.fst).filter
      (fun k => (Utils.lookupStr repo k).isNone)),
    Server.sortStrings ((repo.filter (fun fe =>
      decide (Utils.lookupStr known fe.1 ≠ some fe.2.fingerprint))).map Prod.fst),
    ?_, ?_, ?_, ?_, ?_, ?_, ?_⟩
  · have hnc_nodup : ((repo.filter (fun fe =>
        decide (Utils.lookupStr known fe.1 ≠ some fe.2.fingerprint))).map
          Prod.fst).Nodup :=
      hr.sublist ((List.filter_sublist _).map Prod.fst)
    have hcontent : ∀ p ∈ Server.sortStrings ((repo.filter (fun fe =>
        decide (Utils.lookupStr known fe.1 ≠ some fe.2.fingerprint))).map Prod.fst),
        Server.getContent (repo.filter (fun fe =>
          decide (Utils.lookupStr known fe.1 ≠ some fe.2.fingerprint))) p =
        Server.getContent repo p := by
      intro p hp
      rw [Server.mem_sortStrings] at hp
      obtain ⟨fe, hfe, hfe1⟩ := List.mem_map.mp hp
      obtain ⟨q, e⟩ := fe
      cases hfe1
      have h1 : Utils.lookupStr (repo.filter (fun fe =>
          decide (Utils.lookupStr known fe.1 ≠ some fe.2.fingerprint))) q = some e :=
        Utils.lookupStr_eq_some_of_mem _ _ _ hnc_nodup hfe
      have h2 : Utils.lookupStr repo q = some e :=
        Utils.lookupStr_eq_some_of_mem _ _ _ hr (List.mem_of_mem_filter hfe)
      rw [Server.getContent, Server.getContent, h1, h2]
    rw [Server.clientApplyFrames]
    simp only []
    rw [Server.sortStrings_isEmpty]
    have hmapempty : ((repo.filter (fun fe =>
        decide (Utils.lookupStr known fe.1 ≠ some fe.2.fingerprint))).map
          Prod.fst).isEmpty =
        (repo.filter (fun fe =>
          decide (Utils.lookupStr known fe.1 ≠ some fe.2.fingerprint))).isEmpty := by
      cases repo.filter (fun fe =>
        decide (Utils.lookupStr known fe.1 ≠ some fe.2.fingerprint)) <;> rfl
    rw [Server.sortStrings_isEmpty, hmapempty]
    congr 1
    by_cases hempty : (repo.filter (fun fe =>
        decide (Utils.lookupStr known fe.1 ≠ some fe.2.fingerprint))).isEmpty = true
    · rw [if_pos hempty, if_pos hempty]
    · rw [if_neg hempty, if_neg hempty]
      congr 1
      exact (List.map_congr_left (fun p hp => by rw [hcontent p hp])).symm
  · exact Server.sorted_sortStrings _
  · intro k
    rw [Server.mem_sortStrings, List.mem_filter, Server.staleSpec,
      Option.isNone_iff_eq_none]
  · exact Server.sorted_sortStrings _
  · intro p
    rw [Server.mem_sortStrings, Server.freshSpec]
    constructor
    · intro hp
      obtain ⟨fe, hfe, hfe1⟩ := List.mem_map.mp hp
      obtain ⟨q, e⟩ := fe
      cases hfe1
      obtain ⟨hmem, hpred⟩ := List.mem_filter.mp hfe
      exact ⟨e, hmem, of_decide_eq_true hpred⟩
    · rintro ⟨e, hmem, hne⟩
      exact List.mem_map.mpr ⟨(p, e),
        List.mem_filter.mpr ⟨hmem, decide_eq_true hne⟩, rfl⟩
  · intro p e hmem hsame
    constructor
    · intro hp
      rw [Server.mem_sortStrings, List.mem_filter] at hp
      have := (Option.isNone_iff_eq_none.mp hp.2)
      rw [Utils.lookupStr_eq_some_of_mem repo p e hr hmem] at this
      cases this
    · intro hp
      rw [Server.mem_sortStrings] at hp
      obtain ⟨fe, hfe, hfe1⟩ := List.mem_map.mp hp
      obtain ⟨q, e2⟩ := fe
      cases hfe1
      obtain ⟨hmem2, hpred⟩ := List.mem_filter.mp hfe
      have h1 : Utils.lookupStr repo q = some e :=
        Utils.lookupStr_eq_some_of_mem _ _ _ hr hmem
      have h2 : Utils.lookupStr repo q = some e2 :=
        Utils.lookupStr_eq_some_of_mem _ _ _ hr hmem2
      rw [h1] at h2
      cases h2
      exact of_decide_eq_true hpred hsame
  · intro p
    rw [Server.clientApplyFrames]
    simp only []
    exact Utils.lookupStr_map_snd repo Server.RepoEntry.fingerprint p

/-- Witness for C3 at the spec's concrete example: with the agent known to
hold a (fingerprint 1) and b (fingerprint 2) and a fresh repository view
holding b (unchanged fingerprint 2) and c (fingerprint 3), the controller
sends discard_files(["a"]), then accept_files(["c"]) and one binary frame
with c's content, and the new cache records b and c. -/
theorem C3_cache_delta_witness :
    (([("a", 1), ("b", 2)].map (Prod.fst (α := String) (β := Nat))).Nodup
    ∧ ([("b", Server.RepoEntry.mk 20 2), ("c", Server.RepoEntry.mk 30 3)].map
        Prod.fst).Nodup)
    ∧ Server.C3_concl [("a", 1), ("b", 2)]
        [("b", Server.RepoEntry.mk 20 2), ("c", Server.RepoEntry.mk 30 3)] :=
  ⟨⟨by decide, by decide⟩,
   C3_cache_delta [("a", 1), ("b", 2)]
     [("b", Server.RepoEntry.mk 20 2), ("c", Server.RepoEntry.mk 30 3)]
     (by decide) (by decide)⟩

namespace Rpc

theorem set_get_eq {α : Type} (l : List α) (i : Nat) (a : α)
    (h : l.get? i = some a) : l.set i a = l := by
  induction l generalizing i with
  | nil => cases h
  | cons b rest ih =>
    cases i with
    | zero =>
      rw [List.get?_cons_zero] at h
      cases h
      rfl
    | succ j =>
      rw [List.get?_cons_succ] at h
      rw [List.set_cons_succ, ih j h]

theorem erase_append_singleton (l : List Nat) (a : Nat) (h : a ∉ l) :
    (l ++ [a]).erase a = l := by
  rw [List.erase_append_right _ h, List.erase_cons_head, List.append_nil]

theorem runCall_sessions (p : Process) (i : Nat) (o : Outcome) (hinv : ProcInv p) :
    (runCall p i o).1.sessions = p.sessions := by
  rw [runCall]
  cases hget : p.sessions.get? i with
  | none => rfl
  | some s =>
    simp only []
    have hs : s ∈ p.sessions := List.get?_mem hget
    have hnotin : p.next_cid ∉ s.pending_commands := by
      intro hmem
      exact absurd (hinv s hs p.next_cid hmem) (Nat.lt_irrefl _)
    rw [erase_append_singleton _ _ hnotin]
    exact set_get_eq _ _ _ hget

theorem runCall_next_cid (p : Process) (i : Nat) (o : Outcome) :
    (runCall p i o).1.next_cid = p.next_cid + 1 := by
  rw [runCall]

theorem runCall_cid (p : Process) (i : Nat) (o : Outcome) :
    (runCall p i o).2 = p.next_cid := by
  rw [runCall]

theorem runCall_inv (p : Process) (i : Nat) (o : Outcome) (hinv : ProcInv p) :
    ProcInv (runCall p i o).1 := by
  intro s hs c hc
  rw [runCall_sessions p i o hinv] at hs
  rw [runCall_next_cid]
  exact Nat.lt_succ_of_lt (hinv s hs c hc)

theorem runCalls_trace (calls : List (Nat × Outcome)) :
    ∀ p : Process, ProcInv p →
      ((runCalls p calls).1.sessions = p.sessions
      ∧ (runCalls p calls).1.next_cid = p.next_cid + calls.length
      ∧ (∀ c ∈ (runCalls p calls).2,
          p.next_cid ≤ c ∧ c < p.next_cid + calls.length)
      ∧ List.Pairwise (· < ·) (runCalls p calls).2) := by
  induction calls with
  | nil =>
    intro p _
    refine ⟨rfl, rfl, ?_, List.Pairwise.nil⟩
    intro c hc
    cases hc
  | cons co rest ih =>
    intro p hinv
    obtain ⟨i, o⟩ := co
    have hkey : runCalls p ((i, o) :: rest) =
        ((runCalls (runCall p i o).1 rest).1,
          (runCall p i o).2 :: (runCalls (runCall p i o).1 rest).2) := rfl
    obtain ⟨s1, c1, b1, pw1⟩ := ih (runCall p i o).1 (runCall_inv p i o hinv)
    rw [hkey]
    refine ⟨?_, ?_, ?_, ?_⟩
    · rw [s1, runCall_sessions p i o hinv]
    · rw [c1, runCall_next_cid]
      simp only [List.length_cons]
      omega
    · intro c hc
      rcases List.mem_cons.mp hc with rfl | hc
    
      · rw [runCall_cid]
        simp only [List.length_cons]
        omega
      · obtain ⟨hlo, hhi⟩ := b1 c hc
        rw [runCall_next_cid] at hlo hhi
        simp only [List.length_cons]
        omega
    · refine List.Pairwise.cons ?_ pw1
      intro c hc
      obtain ⟨hlo, _⟩ := b1 c hc
      rw [runCall_next_cid] at hlo
      rw [runCall_cid]
      omega

end Rpc

/-- C9: the correlation-id counter is shared by every RPC session of a
process, so across any sequence of reply-expecting remote_command calls on
any sessions, the allocated cids are strictly increasing in call order and
never repeat; and whatever each call's outcome (reply, error reply, timeout
or send failure), after the calls no allocated cid remains in any session's
pending-commands table. -/
theorem C9_shared_cid_counter (p : Rpc.Process) (calls : List (Nat × Rpc.Outcome))
    (hinv : Rpc.ProcInv p) : Rpc.C9_concl p calls := by
  obtain ⟨hsess, _, hbounds, hpw⟩ := Rpc.runCalls_trace calls p hinv
  refine ⟨hpw, hpw.imp (fun h => Nat.ne_of_lt h), ?_⟩
  intro c hc s hs hpend
  rw [hsess] at hs
  have h1 := hinv s hs c hpend
  have h2 := (hbounds c hc).1
  omega

/-- Witness for C9 at a concrete process: counter at 5, two sessions with
pending cids 1 and 3, and three calls with a timeout, a success and an
error-reply outcome (one of them addressed at a nonexistent session
index). -/
theorem C9_shared_cid_counter_witness :
    Rpc.ProcInv (Rpc.Process.mk 5 [Rpc.Session.mk [1, 3], Rpc.Session.mk []])
    ∧ Rpc.C9_concl (Rpc.Process.mk 5 [Rpc.Session.mk [1, 3], Rpc.Session.mk []])
        [(0, .timeoutError), (1, .success []), (5, .commandError "boom")] :=
  ⟨by unfold Rpc.ProcInv; decide,
   C9_shared_cid_counter (Rpc.Process.mk 5 [Rpc.Session.mk [1, 3], Rpc.Session.mk []])
     [(0, .timeoutError), (1, .success []), (5, .commandError "boom")]
     (by unfold Rpc.ProcInv; decide)⟩

namespace Utils

theorem lookupStr_eraseStr_ne {α : Type} (m : List (String × α)) (k k2 : String)
    (h : k ≠ k2) : lookupStr (eraseStr m k2) k = lookupStr m k := by
  induction m with
  | nil => rfl
  | cons kv rest ih =>
    obtain ⟨a, v⟩ := kv
    by_cases ha : a = k2
    · have hne : ¬ a = k := fun h2 => h (h2.symm.trans ha)
      rw [eraseStr, if_pos ha, lookupStr, if_neg hne]
    · rw [eraseStr, if_neg ha]
      by_cases hak : a = k
      · rw [lookupStr, if_pos hak, lookupStr, if_pos hak]
      · rw [lookupStr, if_neg hak, lookupStr, if_neg hak]
        exact ih

end Utils

/-- C10: invoking the agent's discard_files with a path list whose first
missing path is p raises KeyError at p — surfaced by handle_response as a
false reply carrying the message when the request bears a cid — and leaves
the file cache with exactly the paths listed before p already removed and
the paths after p untouched, so a failed discard_files is not atomic. -/
theorem C10_discard_files_not_atomic :
    ∀ (files : List (String × Server.Content)) (pre : List String) (p : String)
      (rest : List String) (cid : Nat),
      pre.Nodup →
      (∀ q ∈ pre, (Utils.lookupStr files q).isSome = true) →
      Utils.lookupStr (Agent.eraseKeys files pre) p = none →
      (Agent.discard_files files (pre ++ p :: rest) =
        (some p, Agent.eraseKeys files pre)
      ∧ Agent.handleDiscardFiles cid files (pre ++ p :: rest) =
        (.err cid p, Agent.eraseKeys files pre)) := by
  intro files pre
  induction pre generalizing files with
  | nil =>
    intro p rest cid _ _ hp
    have hp2 : Utils.lookupStr files p = none := hp
    have h1 : Agent.discard_files files ([] ++ p :: rest) = (some p, files) := by
      rw [List.nil_append, Agent.discard_files, hp2]
    refine ⟨h1, ?_⟩
    rw [Agent.handleDiscardFiles, h1]
    rfl
  | cons q pre ih =>
    intro p rest cid hnd hall hp
    have hq := hall q (List.mem_cons_self _ _)
    obtain ⟨v, hv⟩ := Option.isSome_iff_exists.mp hq
    rw [List.nodup_cons] at hnd
    have hstep : Agent.discard_files files ((q :: pre) ++ p :: rest) =
        Agent.discard_files (Utils.eraseStr files q) (pre ++ p :: rest) := by
      rw [List.cons_append, Agent.discard_files, hv]
    have hkeys : Agent.eraseKeys files (q :: pre) =
        Agent.eraseKeys (Utils.eraseStr files q) pre := rfl
    have hih := ih (Utils.eraseStr files q) p rest cid hnd.2 ?_ ?_
    · refine ⟨?_, ?_⟩
      · rw [hstep, hkeys]
        exact hih.1
      · rw [Agent.handleDiscardFiles, hstep, hih.1, hkeys]
    · intro q2 hq2
      have hne : q2 ≠ q := fun h2 => hnd.1 (h2 ▸ hq2)
      rw [Utils.lookupStr_eraseStr_ne files q2 q hne]
      exact hall q2 (List.mem_cons_of_mem _ hq2)
    · rw [← hkeys]
      exact hp

/-- Witness for C10 at concrete inputs: the cache holds a and b; discarding
a, x, b removes a, then fails on the missing x with a false reply, leaving
only b and never reaching it. -/
theorem C10_discard_files_not_atomic_witness :
    ((["a"] : List String).Nodup
      ∧ (∀ q ∈ (["a"] : List String),
          (Utils.lookupStr [("a", 1), ("b", 2)] q).isSome = true)
      ∧ Utils.lookupStr (Agent.eraseKeys [("a", 1), ("b", 2)] ["a"]) "x" = none)
    ∧ (Agent.discard_files [("a", 1), ("b", 2)] (["a"] ++ "x" :: ["b"]) =
        (some "x", Agent.eraseKeys [("a", 1), ("b", 2)] ["a"])
      ∧ Agent.handleDiscardFiles 7 [("a", 1), ("b", 2)] (["a"] ++ "x" :: ["b"]) =
        (.err 7 "x", Agent.eraseKeys [("a", 1), ("b", 2)] ["a"])) :=
  ⟨⟨by decide, by decide, by decide⟩,
   C10_discard_files_not_atomic [("a", 1), ("b", 2)] ["a"] "x" ["b"] 7
     (by decide) (by decide) (by decide)⟩
